import Mathlib

/-!
Shallow embedding of the S3agle attachment pipeline (an Obsidian plugin that
stores pasted attachments in S3, the local vault and/or the Eagle asset
manager) together with proofs about the embedded operations.

Conventions of the embedding:
* JavaScript strings are modelled as Lean `String` where only string-level
  operations matter, and as `List Nat` of UTF-16 code units inside the vault
  name-collision model, where character-level reasoning is needed.
* `async` collaborator calls (network, filesystem) are modelled as explicit
  oracle arguments; a JavaScript function that can `throw` is modelled with
  `Except String` in its result, a thrown error being `.error`.
* The vault filesystem is an association list from path to content; the
  SHA-256 digest used by `saveFileToVault` is modelled abstractly by the
  content itself (digests of equal contents are equal, and the model assumes
  collision freedom, which is the intent of the comparison in the source).
-/

namespace S3agle

/-! ## Identity naming (`src/helpers.ts`)

`hashString` of the source: `hash = hashSeed`, then for each UTF-16 unit
`hash = (hash * 33) ^ char` where JavaScript coerces to a signed 32-bit
integer at every step, and finally `hash >>> 0` reinterprets as unsigned.
On unsigned 32-bit representatives this is exactly multiplication modulo
`2^32` followed by bitwise xor with the character code. -/

/-- One step of the source's DJB-style hash loop on unsigned 32-bit values. -/
def hashStep (hash c : Nat) : Nat := ((hash * 33) % 4294967296) ^^^ c

/-- The fold of `hashString` before the final `>>> 0` coercion. -/
def hashVal (str : String) (hashSeed : Nat) : Nat :=
  str.data.foldl (fun h c => hashStep h c.toNat) hashSeed

/-- `hashString` from `src/helpers.ts`: digest of the characters of `str`
seeded with `hashSeed`, rendered as the decimal string of the unsigned
32-bit result. -/
def hashString (str : String) (hashSeed : Nat) : String :=
  toString (hashVal str hashSeed % 4294967296)

/-- `hashNameIfNeeded` from `src/helpers.ts`. -/
def hashNameIfNeeded (fileName : String) (hashFileName : Bool) (hashSeed : Nat) : String :=
  if hashFileName then hashString fileName hashSeed else fileName

/-! ## Small string helpers shared by the embedding -/

/-- JavaScript `s.startsWith(pre)` (code-unit prefix), implemented on the
character list so that it reduces inside the kernel. -/
def startsWithStr (s pre : String) : Bool := pre.data.isPrefixOf s.data

/-- JavaScript `s.endsWith(suf)` (code-unit suffix). -/
def endsWithStr (s suf : String) : Bool := suf.data.isSuffixOf s.data

/-- JavaScript `s.slice(n)` / Lean `String.drop`, on the character list. -/
def dropStr (s : String) (n : Nat) : String := String.mk (s.data.drop n)

/-- Whether `pat` occurs as a contiguous sub-list (JavaScript `includes`). -/
def hasSubList (pat : List Char) : List Char → Bool
  | [] => pat.isPrefixOf []
  | c :: rest => pat.isPrefixOf (c :: rest) || hasSubList pat rest

/-- JavaScript `s.includes(pat)`. -/
def includesStr (s pat : String) : Bool := hasSubList pat.data s.data

/-- JavaScript `String.prototype.replace` with a string pattern: replace the
first occurrence only, or return the string unchanged when the pattern does
not occur. -/
def replaceOnceL (pat rep : List Char) : List Char → List Char
  | [] => if pat.isPrefixOf ([] : List Char) then rep else []
  | c :: rest =>
    if pat.isPrefixOf (c :: rest) then rep ++ (c :: rest).drop pat.length
    else c :: replaceOnceL pat rep rest

/-- String-level wrapper of `replaceOnceL`. -/
def replaceOnce (s pat rep : String) : String :=
  String.mk (replaceOnceL pat.data rep.data s.data)

/-! ## Settings (`src/settings.ts`), restricted to the fields the embedded
functions read -/

/-- The slice of `S3agleSettings` consumed by `processFile` and the embed
renderer. -/
structure S3agleSettings where
  useS3 : Bool
  useVault : Bool
  useEagle : Bool
  localUpload : Bool
  localUploadFolder : String
  useGoogleDocsViewer : Bool
  useMicrosoftOfficeViewer : Bool
deriving Repr, DecidableEq

/-! ## Embed renderer (`src/processFile.ts`) -/

/-- `detectFileType` from `src/processFile.ts`, on the attachment's declared
MIME type and name. -/
def detectFileType (fileType fileName : String) : String :=
  if startsWithStr fileType "image" then "image"
  else if startsWithStr fileType "video" then "video"
  else if startsWithStr fileType "audio" then "audio"
  else if startsWithStr fileType "text" then "text"
  else if fileType = "application/pdf" then "pdf"
  else if fileType = "application/vnd.openxmlformats-officedocument.wordprocessingml.document"
          ∨ fileType = "application/msword" then "doc"
  else if includesStr fileType "presentation" ∨ includesStr fileType "powerpoint" then "ppt"
  else if includesStr fileType "spreadsheet" ∨ includesStr fileType "excel" then "xls"
  else if includesStr fileType "zip" then "zip"
  else if endsWithStr fileName ".md" then "md"
  else "unknown"

/-- The single-quote character, used by the source's office-viewer markup. -/
def sq : String := String.mk [Char.ofNat 39]

/-- `wrapFileDependingOnType` from `src/processFile.ts`: map a location, a
detected content category and settings to the embed markup. -/
def wrapFileDependingOnType (location type localBase : String)
    (settings : S3agleSettings) (fileName : String) : String :=
  let srcPre := if localBase ≠ "" then "file://" ++ localBase ++ "/" else ""
  let isLocationEagleUri := startsWithStr location "eagle://"
  if type = "image" then
    if isLocationEagleUri then "[" ++ fileName ++ "](" ++ location ++ ")"
    else "![" ++ fileName ++ "](" ++ location ++ ")"
  else if type = "video" then
    "<video src=\"" ++ srcPre ++ location ++ "\" controls />"
  else if type = "audio" then
    "<audio src=\"" ++ srcPre ++ location ++ "\" controls />"
  else if type = "pdf" then
    if settings.useGoogleDocsViewer ∧ localBase = "" then
      "<iframe frameborder=0 border=0 width=100% height=800 src=\"https://docs.google.com/viewer?embedded=true&url="
        ++ location ++ "?raw=true\"></iframe>"
    else "[pdf](" ++ location ++ ")"
  else if type = "ppt" then
    if settings.useMicrosoftOfficeViewer ∧ localBase = "" then
      "<iframe src=" ++ sq ++ "https://view.officeapps.live.com/op/embed.aspx?src=" ++ location
        ++ sq ++ " width=" ++ sq ++ "100%" ++ sq ++ " height=" ++ sq ++ "600px" ++ sq
        ++ " frameborder=" ++ sq ++ "0" ++ sq ++ "></iframe>"
    else "[ppt](" ++ location ++ ")"
  else if type = "doc" then
    if settings.useMicrosoftOfficeViewer ∧ localBase = "" then
      "<iframe src=" ++ sq ++ "https://view.officeapps.live.com/op/embed.aspx?src=" ++ location
        ++ sq ++ " width=" ++ sq ++ "100%" ++ sq ++ " height=" ++ sq ++ "600px" ++ sq
        ++ " frameborder=" ++ sq ++ "0" ++ sq ++ "></iframe>"
    else "[" ++ fileName ++ "](" ++ location ++ ")"
  else if type = "md" then
    if isLocationEagleUri then "[" ++ fileName ++ "](" ++ location ++ ")"
    else
      let obsidianPath := (((location.splitOn "/").getLastD "").splitOn ".").headD ""
      "[[" ++ obsidianPath ++ "]]"
  else "[" ++ fileName ++ "](" ++ location ++ ")"

/-- `generateFilePreview` from `src/processFile.ts`. -/
def generateFilePreview (fileType fileName : String) (settings : S3agleSettings)
    (s3Url eagleUrl vaultUrl : String) : String :=
  let localBase :=
    if settings.localUpload then "file://" ++ settings.localUploadFolder ++ "/" else ""
  if settings.useS3 ∧ s3Url ≠ "" then
    wrapFileDependingOnType s3Url (detectFileType fileType fileName) localBase settings fileName
  else if settings.useVault ∧ vaultUrl ≠ "" then
    wrapFileDependingOnType vaultUrl (detectFileType fileType fileName) localBase settings fileName
  else if settings.useEagle ∧ eagleUrl ≠ "" then
    wrapFileDependingOnType eagleUrl (detectFileType fileType fileName) localBase settings fileName
  else "ERROR WRAPPING FILE FOR FILE PREVIEW"

/-! ## Upload orchestrator (`src/processFile.ts`)

`processFile` is embedded with the three backend adapters as oracles:
`s3Upload` is the outcome of `uploadToS3` (which throws on failure, hence
`Except`), `vaultSave` is the path returned by `saveFileToVault` (which
catches its own write errors and returns a string in all cases), and
`eagleUpload` maps the location argument passed to `uploadToEagle` to that
call's outcome.  The result records the final document text, how many times
`saveFileToVault` ran and the argument `uploadToEagle` received, so that
theorems can speak about which backend steps were reached. -/

/-- Observable outcome of one `processFile` run. -/
structure ProcessResult where
  doc : String
  vaultCalls : Nat
  eagleArg : Option String
deriving Repr, DecidableEq

/-- `replacePlaceholder` from `src/processFile.ts` (JavaScript
`String.replace`, first occurrence). -/
def replacePlaceholder (doc placeholder preview : String) : String :=
  replaceOnce doc placeholder preview

/-- `processFile` from `src/processFile.ts`.  `localOnly` is the
`S3agleLocalOnly` frontmatter flag; `baseVaultPath` is the value of
`getBaseVaultPath(app)`. -/
def processFile (settings : S3agleSettings) (localOnly : Bool)
    (s3Upload : Except String String) (vaultSave : String)
    (eagleUpload : String → Except String String)
    (baseVaultPath : String)
    (fileType fileName : String) (doc placeholder : String) : ProcessResult :=
  if localOnly then
    -- `await saveFileToVault(...)`; the placeholder is never replaced here.
    { doc := doc, vaultCalls := 1, eagleArg := none }
  else
    match (if settings.useS3 then s3Upload else Except.ok "") with
    | Except.error _ =>
      -- the catch block of `processFile`
      { doc := replacePlaceholder doc placeholder ("![Error uploading " ++ fileName ++ "]")
        vaultCalls := 0, eagleArg := none }
    | Except.ok s3Url =>
      let vaultUrl := if settings.useVault then vaultSave else ""
      let vaultCalls := if settings.useVault then 1 else 0
      -- third component: the (possibly rewritten) `vaultUrl` after the eagle
      -- branch, which in the source mutates the outer `vaultUrl` variable
      let eagleStep : Option String × Except String String × String :=
        if settings.useEagle then
          if vaultUrl ≠ "" ∧ settings.useVault ∧ ¬settings.useS3 then
            -- dead inner re-save: guarded by `vaultUrl` being truthy above
            let vaultUrl := if vaultUrl = "" then vaultSave else vaultUrl
            let baseFilePath :=
              if endsWithStr baseVaultPath "/" then baseVaultPath else baseVaultPath ++ "/"
            let vaultUrl := replaceOnce vaultUrl baseFilePath ""
            let vaultUrl := if startsWithStr vaultUrl "/" then dropStr vaultUrl 1 else vaultUrl
            let absoluteFilePath := baseFilePath ++ vaultUrl
            (some absoluteFilePath, eagleUpload absoluteFilePath, vaultUrl)
          else if s3Url ≠ "" ∧ settings.useS3 then
            (some s3Url, eagleUpload s3Url, vaultUrl)
          else
            -- `new Notice("S3agle: Eagle needs either local or S3 ...")`
            (none, Except.ok "", vaultUrl)
        else (none, Except.ok "", vaultUrl)
      match eagleStep with
      | (arg, Except.error _, _) =>
        { doc := replacePlaceholder doc placeholder ("![Error uploading " ++ fileName ++ "]")
          vaultCalls := vaultCalls, eagleArg := arg }
      | (arg, Except.ok eagleUrl, vaultUrl2) =>
        let preview := generateFilePreview fileType fileName settings s3Url eagleUrl vaultUrl2
        { doc := replacePlaceholder doc placeholder preview
          vaultCalls := vaultCalls, eagleArg := arg }

/-! ## Eagle folder resolver (`src/eagle/getEagleFolderId.ts`)

`Folder` is the tree node type of `src/types.ts`.  The `createEagleFolder`
network primitive is passed as an oracle `create : name → parentId →
Option id` (the source returns `dataObject.data.id || null`, so a
successful creation always carries a non-null id).  Besides the resolved
node, the embedding returns the list of `(folderName, parentId)` arguments
of the creation calls performed, in order, so that theorems can count
creations. -/

/-- A node of the Eagle folder tree (`type Folder` in `src/types.ts`). -/
inductive Folder where
  | mk (id name parent : String) (children : List Folder)

/-- The `id` field of a `Folder`. -/
def Folder.id : Folder → String
  | .mk i _ _ _ => i

/-- The `name` field of a `Folder`. -/
def Folder.name : Folder → String
  | .mk _ n _ _ => n

/-- The `parent` field of a `Folder`. -/
def Folder.parent : Folder → String
  | .mk _ _ p _ => p

/-- The `children` field of a `Folder`. -/
def Folder.children : Folder → List Folder
  | .mk _ _ _ c => c

/-- `findFolderInTree` from `src/eagle/getEagleFolderId.ts`.  Returns the
resolved folder (or `none`) together with the creation calls issued. -/
def findFolderInTree (create : String → String → Option String)
    (createPathIfNotExist : Bool) (folders : List Folder)
    (pathParts : List String) (parentId : String) :
    Option Folder × List (String × String) :=
  match pathParts with
  | [] => (none, [])
  | folderName :: rest =>
    let endOfTree := rest.isEmpty
    match folders.find? (fun folder => folder.name == folderName) with
    | some folder =>
      if endOfTree then (some folder, [])
      else
        -- current folder found, but we need to go deeper
        findFolderInTree create createPathIfNotExist folder.children rest folder.id
    | none =>
      if createPathIfNotExist then
        match create folderName parentId with
        | some folderId =>
          if endOfTree then
            (some (Folder.mk folderId folderName parentId []),
             [(folderName, parentId)])
          else
            -- the source recurses on the SAME `folders` list, with the new
            -- id as parent
            let res := findFolderInTree create createPathIfNotExist folders rest folderId
            (res.1, (folderName, parentId) :: res.2)
        | none => (none, [(folderName, parentId)])
      else (none, [])

/-! ## Local vault store (`src/vault/saveFileToVault.ts`)

File names and paths are modelled as lists of UTF-16 code units
(`List Nat`), because `incrementFileName` does character-level work.  The
vault filesystem is an association list from path to file content; the
adapter primitives `exists`/`readBinary` are its lookup, and `createBinary`
appends an entry.  `hashFileData` (SHA-256 hex in the source) is modelled
by the content itself: the source only compares digests for equality, and
the model identifies digest equality with content equality.  The `while
(fileExists)` loop is given explicit fuel; `saveFileToVault_total` below
shows that `fs.length + 1` fuel suffices whenever the numeric suffixes in
play stay inside the exactly-representable double range.

The suffix arithmetic runs on JavaScript numbers, i.e. IEEE-754 doubles:
`parseInt` yields the digit run's value rounded to the nearest double
(ties to even), `+ 1` is again correctly rounded, and integers of
magnitude `2^53` or more are not all representable, so the increment can
be absorbed (`1e16 + 1 === 1e16`).  `roundDouble` below is that rounding
on non-negative integers, and `incrementFileName` applies it at both
places the source does.  The template rendering of the resulting value is
modelled by its exact decimal expansion `natDigits`; ECMAScript prints the
shortest decimal that round-trips, which coincides with the exact
expansion for every integer double below `2^53` and at `10^16` — the only
values at which this development evaluates or reasons about the
rendering. -/

/-- The code unit of a decimal digit (`0`–`9`). -/
def isDigitCode (c : Nat) : Bool := 48 ≤ c && c ≤ 57

/-- Fuel-driven decimal rendering; `natDigits` supplies `n + 1` fuel, which
is always enough. -/
def natDigitsAux : Nat → Nat → List Nat
  | 0, _ => []
  | fuel + 1, n =>
    if n < 10 then [48 + n]
    else natDigitsAux fuel (n / 10) ++ [48 + n % 10]

/-- Exact decimal rendering of a natural number as code units (the
template rendering of the integer-valued double the loop carries). -/
def natDigits (n : Nat) : List Nat := natDigitsAux (n + 1) n

/-- The exact integer value of a digit run.  JavaScript `parseInt` returns
this value rounded to the nearest double; see `parseIntJS`. -/
def parseDigits (l : List Nat) : Nat := l.foldl (fun a c => a * 10 + (c - 48)) 0

/-- `2^53`: integers below this bound are exactly representable as
IEEE-754 doubles. -/
def twoPow53 : Nat := 9007199254740992

/-- Fuel-driven unit-in-the-last-place computation: halve until the value
drops below `2^53`, doubling the ulp each time. -/
def ulpAux : Nat → Nat → Nat
  | 0, _ => 1
  | fuel + 1, m => if m < twoPow53 then 1 else 2 * ulpAux fuel (m / 2)

/-- The distance between consecutive doubles around the non-negative
integer `n` (1 below `2^53`, then doubling per binade). -/
def ulp (n : Nat) : Nat := ulpAux n n

/-- Round a non-negative integer to the nearest IEEE-754 double
(round-to-nearest, ties to even), the coercion JavaScript applies to every
numeric value the suffix loop computes. -/
def roundDouble (n : Nat) : Nat :=
  let u := ulp n
  let q := n / u
  let r := n % u
  if 2 * r < u then q * u
  else if 2 * r > u then (q + 1) * u
  else if q % 2 = 0 then q * u else (q + 1) * u

/-- JavaScript `parseInt` on a non-empty all-digit run: the exact value
rounded to the nearest double. -/
def parseIntJS (l : List Nat) : Nat := roundDouble (parseDigits l)

/-- The split performed by the third group `(\.[^.]*$|$)` of the source's
regex: `(stem, extension)`, the extension being the last `.` of the name
with everything after it, or empty when the name has no `.` (code 46). -/
def splitExt (s : List Nat) : List Nat × List Nat :=
  let r := s.reverse
  let d := r.dropWhile (fun c => c != 46)
  if d.isEmpty then (s, [])
  else (d.tail.reverse, 46 :: (r.takeWhile (fun c => c != 46)).reverse)

/-- The split performed by the lazy `(.*?)` against `(\d+)?`:
`(base, digits)`, the digits being the maximal digit run at the end of the
stem (the lazy prefix makes the digit run as long as possible). -/
def splitDigits (stem : List Nat) : List Nat × List Nat :=
  let r := stem.reverse
  ((r.dropWhile isDigitCode).reverse, (r.takeWhile isDigitCode).reverse)

/-- `incrementFileName` from `src/vault/saveFileToVault.ts`: decompose
`fileName` as `base ++ digits? ++ ext` following the source's regex
`(.*?)(\d+)?(\.[^.]*$|$)` and rebuild it with the digit run replaced by
`parseInt(digits) + 1` computed in double arithmetic (both the parse and
the addition are rounded to the nearest double), or `2` when there is no
digit run. -/
def incrementFileName (fileName : List Nat) : List Nat :=
  let se := splitExt fileName
  let bd := splitDigits se.1
  let num := if bd.2.isEmpty then 2 else roundDouble (parseIntJS bd.2 + 1)
  bd.1 ++ natDigits num ++ se.2

/-- The vault filesystem: an association list from path to content. -/
abbrev VaultFs := List (List Nat × List Nat)

/-- The digest used for the content comparison, modelled by the content. -/
def hashFileData (data : List Nat) : List Nat := data

/-- `${folderPath}/${fileName}` (47 is the `/` code unit). -/
def vaultPath (folderPath fileName : List Nat) : List Nat :=
  folderPath ++ 47 :: fileName

/-- Observable outcome of one `saveFileToVault` call: the returned path
(`[]` for the empty string of the write-failure branch), the filesystem
afterwards, and whether `createBinary` ran. -/
structure SaveResult where
  path : List Nat
  fs : VaultFs
  wrote : Bool
deriving Repr, DecidableEq

/-- The `while (fileExists)` loop of `saveFileToVault` followed by the
`createBinary` attempt, with explicit fuel.  `writeOk` says whether the
underlying `app.vault.createBinary` call succeeds; when it fails the source
catches the error, issues a notice and returns the empty string. -/
def saveLoop (writeOk : Bool) (fs : VaultFs) (folderPath data : List Nat) :
    Nat → List Nat → Option SaveResult
  | 0, _ => none
  | fuel + 1, fileName =>
    let filePath := vaultPath folderPath fileName
    match fs.lookup filePath with
    | some existingData =>
      if hashFileData existingData = hashFileData data then
        -- identical content: link to the existing file, no write
        some ⟨filePath, fs, false⟩
      else
        saveLoop writeOk fs folderPath data fuel (incrementFileName fileName)
    | none =>
      if writeOk then some ⟨filePath, (filePath, data) :: fs, true⟩
      else some ⟨[], fs, false⟩

/-- `saveFileToVault` from `src/vault/saveFileToVault.ts`. -/
def saveFileToVault (writeOk : Bool) (fs : VaultFs)
    (folderPath fileName data : List Nat) (fuel : Nat) : Option SaveResult :=
  saveLoop writeOk fs folderPath data fuel fileName

/-- The `k`-th name tried by the collision loop. -/
def incIter (fileName : List Nat) : Nat → List Nat
  | 0 => fileName
  | k + 1 => incrementFileName (incIter fileName k)

/-! ## Analysis of `incrementFileName`

As long as every suffix value in play stays below `2^53`, `roundDouble` is
the identity, and the decomposition of a name into `base ++ digits ++ ext`
is stable under incrementing: the rebuilt name decomposes the same way
with the digit run replaced by its successor.  In that exact regime the
suffix sequence is strictly increasing and the tried names pairwise
distinct, which terminates the collision loop on any finite filesystem.
At `2^53` and beyond the rounding can absorb the `+ 1` and the increment
has fixed points (see the C6 counterexample below). -/

theorem natDigitsAux_congr : ∀ (f1 f2 n : Nat), n < f1 → n < f2 →
    natDigitsAux f1 n = natDigitsAux f2 n := by
  intro f1
  induction f1 with
  | zero => intro f2 n h1; omega
  | succ f1 ih =>
    intro f2 n h1 h2
    cases f2 with
    | zero => omega
    | succ f2 =>
      simp only [natDigitsAux]
      by_cases h : n < 10
      · simp [h]
      · have hd : n / 10 < n := Nat.div_lt_self (by omega) (by omega)
        rw [if_neg h, if_neg h, ih f2 (n / 10) (by omega) (by omega)]

theorem natDigits_unfold (n : Nat) :
    natDigits n = if n < 10 then [48 + n] else natDigits (n / 10) ++ [48 + n % 10] := by
  show natDigitsAux (n + 1) n = _
  simp only [natDigitsAux]
  by_cases h : n < 10
  · simp [h]
  · have hd : n / 10 < n := Nat.div_lt_self (by omega) (by omega)
    rw [if_neg h, if_neg h,
      natDigitsAux_congr n (n / 10 + 1) (n / 10) (by omega) (by omega)]
    rfl

theorem natDigits_ne_nil (n : Nat) : natDigits n ≠ [] := by
  rw [natDigits_unfold]
  by_cases h : n < 10 <;> simp [h]

theorem natDigits_all_digit (n : Nat) : ∀ c ∈ natDigits n, isDigitCode c = true := by
  induction n using Nat.strong_induction_on with
  | _ n ih =>
    rw [natDigits_unfold]
    by_cases h : n < 10
    · simp only [if_pos h, List.mem_singleton]
      rintro c rfl
      simp only [isDigitCode, Bool.and_eq_true, decide_eq_true_eq]
      omega
    · simp only [if_neg h, List.mem_append, List.mem_singleton]
      rintro c (hc | rfl)
      · exact ih (n / 10) (Nat.div_lt_self (by omega) (by omega)) c hc
      · simp only [isDigitCode, Bool.and_eq_true, decide_eq_true_eq]
        have := Nat.mod_lt n (y := 10) (by omega)
        omega

theorem parseDigits_snoc (l : List Nat) (c : Nat) :
    parseDigits (l ++ [c]) = parseDigits l * 10 + (c - 48) := by
  simp [parseDigits, List.foldl_append]

theorem parseDigits_natDigits (n : Nat) : parseDigits (natDigits n) = n := by
  induction n using Nat.strong_induction_on with
  | _ n ih =>
    rw [natDigits_unfold]
    by_cases h : n < 10
    · simp only [if_pos h]
      simp only [parseDigits, List.foldl_cons, List.foldl_nil]
      omega
    · simp only [if_neg h]
      rw [parseDigits_snoc, ih (n / 10) (Nat.div_lt_self (by omega) (by omega))]
      omega

theorem natDigits_injective : Function.Injective natDigits := by
  intro m n h
  have := parseDigits_natDigits m
  rw [h, parseDigits_natDigits] at this
  omega

theorem ulp_eq_one_of_lt {n : Nat} (h : n < twoPow53) : ulp n = 1 := by
  cases n with
  | zero => rfl
  | succ m =>
    show ulpAux (m + 1) (m + 1) = 1
    simp only [ulpAux]
    rw [if_pos h]

theorem roundDouble_eq_of_lt {n : Nat} (h : n < twoPow53) : roundDouble n = n := by
  simp only [roundDouble, ulp_eq_one_of_lt h, Nat.mod_one, Nat.div_one, Nat.mul_one]
  norm_num

theorem takeWhile_append_of_all {α : Type} {p : α → Bool} (xs ys : List α)
    (h : ∀ x ∈ xs, p x = true) :
    (xs ++ ys).takeWhile p = xs ++ ys.takeWhile p := by
  induction xs with
  | nil => simp
  | cons a l ihl =>
    simp only [List.cons_append, List.takeWhile_cons, h a (by simp), if_pos]
    rw [ihl (fun x hx => h x (by simp [hx]))]

theorem dropWhile_append_of_all {α : Type} {p : α → Bool} (xs ys : List α)
    (h : ∀ x ∈ xs, p x = true) :
    (xs ++ ys).dropWhile p = ys.dropWhile p := by
  induction xs with
  | nil => simp
  | cons a l ihl =>
    simp only [List.cons_append, List.dropWhile_cons, h a (by simp), if_pos]
    exact ihl (fun x hx => h x (by simp [hx]))

theorem takeWhile_eq_nil_of_head {α : Type} {p : α → Bool} (xs : List α)
    (h : ∀ c cs, xs = c :: cs → p c = false) : xs.takeWhile p = [] := by
  cases xs with
  | nil => simp
  | cons c cs => simp [List.takeWhile_cons, h c cs rfl]

theorem dropWhile_eq_self_of_head {α : Type} {p : α → Bool} (xs : List α)
    (h : ∀ c cs, xs = c :: cs → p c = false) : xs.dropWhile p = xs := by
  cases xs with
  | nil => simp
  | cons c cs => simp [List.dropWhile_cons, h c cs rfl]

/-- The extension invariant produced and consumed by `splitExt`: the
extension is empty while the rest is dot-free, or it is a dot followed by a
dot-free tail. -/
def ExtShape (b e : List Nat) : Prop :=
  (e = [] ∧ ∀ c ∈ b, c ≠ 46) ∨ (∃ t, e = 46 :: t ∧ ∀ c ∈ t, c ≠ 46)

/-- The base invariant produced and consumed by `splitDigits`: the base does
not end with a digit. -/
def BaseShape (b : List Nat) : Prop :=
  ∀ c cs, b.reverse = c :: cs → isDigitCode c = false

theorem splitExt_of_shape (b d e : List Nat)
    (_hd : ∀ c ∈ d, c ≠ 46) (hbe : ExtShape (b ++ d) e) :
    splitExt (b ++ d ++ e) = (b ++ d, e) := by
  rcases hbe with ⟨rfl, hbd⟩ | ⟨t, rfl, ht⟩
  · have hall : ∀ x ∈ (b ++ d).reverse, (x != 46) = true := by
      intro x hx
      simp only [List.mem_reverse, List.mem_append] at hx
      simp only [bne_iff_ne, ne_eq]
      rcases hx with hx | hx
      · exact hbd x (by simp [hx])
      · exact hbd x (by simp [hx])
    have hdrop : (b ++ d).reverse.dropWhile (fun c => c != 46) = [] :=
      List.dropWhile_eq_nil_iff.mpr hall
    rw [List.append_nil]
    simp only [splitExt, hdrop, List.isEmpty_nil, if_pos]
  · have hrev : (b ++ d ++ 46 :: t).reverse
        = t.reverse ++ 46 :: (b ++ d).reverse := by
      simp [List.reverse_append]
    have htall : ∀ x ∈ t.reverse, (x != 46) = true := by
      intro x hx
      simp only [List.mem_reverse] at hx
      simp only [bne_iff_ne, ne_eq]
      exact ht x hx
    have hdrop : (b ++ d ++ 46 :: t).reverse.dropWhile (fun c => c != 46)
        = 46 :: (b ++ d).reverse := by
      rw [hrev, dropWhile_append_of_all _ _ htall]
      simp [List.dropWhile_cons]
    have htake : (b ++ d ++ 46 :: t).reverse.takeWhile (fun c => c != 46)
        = t.reverse := by
      rw [hrev, takeWhile_append_of_all _ _ htall]
      simp [List.takeWhile_cons]
    simp only [splitExt, hdrop, htake, List.isEmpty_cons, List.tail_cons,
      List.reverse_reverse]
    simp

theorem splitDigits_of_shape (b d : List Nat)
    (hb : BaseShape b) (hd : ∀ c ∈ d, isDigitCode c = true) :
    splitDigits (b ++ d) = (b, d) := by
  have hdall : ∀ x ∈ d.reverse, isDigitCode x = true := by
    intro x hx
    exact hd x (List.mem_reverse.mp hx)
  have htake : (b ++ d).reverse.takeWhile isDigitCode = d.reverse := by
    rw [List.reverse_append, takeWhile_append_of_all _ _ hdall,
      takeWhile_eq_nil_of_head _ hb, List.append_nil]
  have hdrop : (b ++ d).reverse.dropWhile isDigitCode = b.reverse := by
    rw [List.reverse_append, dropWhile_append_of_all _ _ hdall,
      dropWhile_eq_self_of_head _ hb]
  simp only [splitDigits, htake, hdrop, List.reverse_reverse]

theorem incrementFileName_of_shape (b e : List Nat) (k : Nat)
    (hk : k + 1 < twoPow53) (hb : BaseShape b) (he : ExtShape b e) :
    incrementFileName (b ++ natDigits k ++ e) = b ++ natDigits (k + 1) ++ e := by
  have hdig := natDigits_all_digit k
  have hnodot : ∀ c ∈ natDigits k, c ≠ 46 := by
    intro c hc
    have := hdig c hc
    simp only [isDigitCode, Bool.and_eq_true, decide_eq_true_eq] at this
    omega
  have hext : ExtShape (b ++ natDigits k) e := by
    rcases he with ⟨rfl, hbd⟩ | ⟨t, rfl, ht⟩
    · exact Or.inl ⟨rfl, by
        intro c hc
        rcases List.mem_append.mp hc with hc | hc
        · exact hbd c hc
        · exact hnodot c hc⟩
    · exact Or.inr ⟨t, rfl, ht⟩
  have h1 : splitExt (b ++ natDigits k ++ e) = (b ++ natDigits k, e) :=
    splitExt_of_shape b (natDigits k) e hnodot hext
  have h2 : splitDigits (b ++ natDigits k) = (b, natDigits k) :=
    splitDigits_of_shape b (natDigits k) hb hdig
  have h3 : (natDigits k).isEmpty = false := List.isEmpty_eq_false.mpr (natDigits_ne_nil k)
  have h4 : parseIntJS (natDigits k) = k := by
    rw [parseIntJS, parseDigits_natDigits, roundDouble_eq_of_lt (by omega)]
  simp only [incrementFileName, h1, h2, h3, Bool.false_eq_true, if_false, h4,
    roundDouble_eq_of_lt hk]

/-- The base component of the decomposition `incrementFileName` performs. -/
def incBase (s : List Nat) : List Nat := (splitDigits (splitExt s).1).1

/-- The digit-run component of the decomposition. -/
def incDigits (s : List Nat) : List Nat := (splitDigits (splitExt s).1).2

/-- The extension component of the decomposition. -/
def incExt (s : List Nat) : List Nat := (splitExt s).2

/-- The number the rebuilt name carries. -/
def incNum (s : List Nat) : Nat :=
  if (incDigits s).isEmpty then 2 else roundDouble (parseIntJS (incDigits s) + 1)

theorem incrementFileName_eq (s : List Nat) :
    incrementFileName s = incBase s ++ natDigits (incNum s) ++ incExt s := rfl

theorem dropWhile_head_false {α : Type} {p : α → Bool} {l : List α} {c : α}
    {cs : List α} (h : l.dropWhile p = c :: cs) : p c = false := by
  induction l with
  | nil => simp at h
  | cons a t ih =>
    rw [List.dropWhile_cons] at h
    by_cases hp : p a = true
    · rw [if_pos hp] at h
      exact ih h
    · rw [if_neg hp] at h
      injection h with h1 _
      rw [← h1]
      exact Bool.not_eq_true _ |>.mp hp

theorem splitExt_recompose (s : List Nat) : (splitExt s).1 ++ (splitExt s).2 = s := by
  by_cases h : (s.reverse.dropWhile (fun c => c != 46)).isEmpty = true
  · simp only [splitExt, h, if_true, List.append_nil]
  · obtain ⟨c, l, hd⟩ : ∃ c l, s.reverse.dropWhile (fun c => c != 46) = c :: l := by
      rcases hcase : s.reverse.dropWhile (fun c => c != 46) with _ | ⟨c, l⟩
      · rw [hcase] at h
        simp at h
      · exact ⟨c, l, rfl⟩
    have hc : c = 46 := by
      have := dropWhile_head_false hd
      simpa using this
    subst hc
    have h3 : s = (s.reverse.takeWhile (fun c => c != 46) ++ 46 :: l).reverse := by
      rw [← hd, List.takeWhile_append_dropWhile, List.reverse_reverse]
    rw [List.reverse_append, List.reverse_cons, List.append_assoc,
      List.singleton_append] at h3
    simp only [splitExt, hd, List.isEmpty_cons, Bool.false_eq_true, if_false,
      List.tail_cons]
    exact h3.symm

theorem splitDigits_recompose (t : List Nat) :
    (splitDigits t).1 ++ (splitDigits t).2 = t := by
  simp only [splitDigits]
  rw [← List.reverse_append, List.takeWhile_append_dropWhile, List.reverse_reverse]

theorem incrementFileName_recompose (s : List Nat) :
    incBase s ++ incDigits s ++ incExt s = s := by
  calc incBase s ++ incDigits s ++ incExt s
      = ((splitDigits (splitExt s).1).1 ++ (splitDigits (splitExt s).1).2)
          ++ (splitExt s).2 := rfl
    _ = (splitExt s).1 ++ (splitExt s).2 := by rw [splitDigits_recompose]
    _ = s := splitExt_recompose s

/-- `ExtShape` is inherited by a prefix of the stem. -/
theorem ExtShape.of_append {x y e : List Nat} (h : ExtShape (x ++ y) e) :
    ExtShape x e := by
  rcases h with ⟨rfl, hall⟩ | ⟨t, rfl, ht⟩
  · exact Or.inl ⟨rfl, fun c hc => hall c (List.mem_append_left _ hc)⟩
  · exact Or.inr ⟨t, rfl, ht⟩

theorem splitExt_shape (s : List Nat) : ExtShape (splitExt s).1 (splitExt s).2 := by
  by_cases h : (s.reverse.dropWhile (fun c => c != 46)).isEmpty = true
  · refine Or.inl ⟨by simp only [splitExt, h, if_true], ?_⟩
    intro c hc
    have hall := List.dropWhile_eq_nil_iff.mp (List.isEmpty_iff.mp h)
    have hmem : c ∈ s.reverse := by
      simp only [splitExt, h, if_true] at hc
      exact List.mem_reverse.mpr hc
    have := hall c hmem
    simpa using this
  · obtain ⟨c, l, hd⟩ : ∃ c l, s.reverse.dropWhile (fun c => c != 46) = c :: l := by
      rcases hcase : s.reverse.dropWhile (fun c => c != 46) with _ | ⟨c, l⟩
      · rw [hcase] at h
        simp at h
      · exact ⟨c, l, rfl⟩
    refine Or.inr ⟨(s.reverse.takeWhile (fun c => c != 46)).reverse, ?_, ?_⟩
    · simp only [splitExt, hd, List.isEmpty_cons, Bool.false_eq_true, if_false]
    · intro x hx
      have := List.mem_takeWhile_imp (List.mem_reverse.mp hx)
      simpa using this

theorem splitDigits_base_shape (t : List Nat) : BaseShape (splitDigits t).1 := by
  intro c cs h
  rw [splitDigits, List.reverse_reverse] at h
  exact dropWhile_head_false h

theorem splitDigits_digits_shape (t : List Nat) :
    ∀ c ∈ (splitDigits t).2, isDigitCode c = true := by
  intro c hc
  rw [splitDigits] at hc
  exact List.mem_takeWhile_imp (List.mem_reverse.mp hc)

theorem incBase_shape (s : List Nat) : BaseShape (incBase s) :=
  splitDigits_base_shape _

theorem incExt_shape (s : List Nat) : ExtShape (incBase s) (incExt s) := by
  have h := splitExt_shape s
  rw [← splitDigits_recompose (splitExt s).1] at h
  exact h.of_append

theorem incIter_succ (s : List Nat) (i : Nat) (hi : incNum s + i < twoPow53) :
    incIter s (i + 1) = incBase s ++ natDigits (incNum s + i) ++ incExt s := by
  induction i with
  | zero => exact incrementFileName_eq s
  | succ i ih =>
    show incrementFileName (incIter s (i + 1)) = _
    rw [ih (by omega), incrementFileName_of_shape _ _ _ (by omega)
      (incBase_shape s) (incExt_shape s), Nat.add_assoc]

/-- In the exact regime the tried names are pairwise distinct: the loop
never revisits a name as long as the suffix values stay below `2^53`. -/
theorem incIter_inj_on (s : List Nat) (n : Nat) (hn : incNum s + n < twoPow53) :
    ∀ i, i ≤ n → ∀ j, j ≤ n → incIter s i = incIter s j → i = j := by
  have cancel : ∀ (b x y e : List Nat), b ++ x ++ e = b ++ y ++ e → x = y := by
    intro b x y e h
    exact List.append_cancel_left (List.append_cancel_right
      (by rwa [List.append_assoc, List.append_assoc] at h))
  have zero_ne : ∀ j : Nat, j + 1 ≤ n → incIter s 0 ≠ incIter s (j + 1) := by
    intro j hj h
    rw [incIter_succ s j (by omega)] at h
    simp only [incIter] at h
    conv_lhs at h => rw [← incrementFileName_recompose s]
    have hdig : incDigits s = natDigits (incNum s + j) := cancel _ _ _ _ h
    by_cases hde : (incDigits s).isEmpty = true
    · rw [List.isEmpty_iff.mp hde] at hdig
      exact natDigits_ne_nil _ hdig.symm
    · have hval : parseDigits (incDigits s) = incNum s + j := by
        rw [hdig, parseDigits_natDigits]
      have hnum : incNum s = roundDouble (parseIntJS (incDigits s) + 1) := by
        rw [incNum, if_neg (by simp [hde])]
      rw [parseIntJS, hval, @roundDouble_eq_of_lt (incNum s + j) (by omega),
        @roundDouble_eq_of_lt (incNum s + j + 1) (by omega)] at hnum
      omega
  intro i hi j hj h
  match i, hi, j, hj with
  | 0, _, 0, _ => rfl
  | 0, _, j + 1, hj => exact absurd h (zero_ne j hj)
  | i + 1, hi, 0, _ => exact absurd h.symm (zero_ne i hi)
  | i + 1, hi, j + 1, hj =>
    rw [incIter_succ s i (by omega), incIter_succ s j (by omega)] at h
    have := natDigits_injective (cancel _ _ _ _ h)
    omega

theorem ExtShape.append_digits {b e d : List Nat} (h : ExtShape b e)
    (hd : ∀ c ∈ d, c ≠ 46) : ExtShape (b ++ d) e := by
  rcases h with ⟨rfl, hb⟩ | ⟨t, rfl, ht⟩
  · exact Or.inl ⟨rfl, fun c hc => (List.mem_append.mp hc).elim (hb c) (hd c)⟩
  · exact Or.inr ⟨t, rfl, ht⟩

theorem natDigits_no_dot (k : Nat) : ∀ c ∈ natDigits k, c ≠ 46 := by
  intro c hc
  have := natDigits_all_digit k c hc
  simp only [isDigitCode, Bool.and_eq_true, decide_eq_true_eq] at this
  omega

theorem incDigits_incIter (s : List Nat) (i : Nat) (hi : incNum s + i < twoPow53) :
    incDigits (incIter s (i + 1)) = natDigits (incNum s + i) := by
  rw [incIter_succ s i hi]
  have h1 := splitExt_of_shape (incBase s) (natDigits (incNum s + i)) (incExt s)
    (natDigits_no_dot _) ((incExt_shape s).append_digits (natDigits_no_dot _))
  have h2 := splitDigits_of_shape (incBase s) (natDigits (incNum s + i))
    (incBase_shape s) (natDigits_all_digit _)
  simp only [incDigits, h1, h2]

/-! ## Behaviour of the collision loop -/

theorem incIter_shift (s : List Nat) : ∀ j, incIter (incrementFileName s) j = incIter s (j + 1)
  | 0 => rfl
  | j + 1 => by
    show incrementFileName (incIter (incrementFileName s) j)
        = incrementFileName (incIter s (j + 1))
    rw [incIter_shift s j]

theorem lookup_some_mem_keys {fs : VaultFs} {k v : List Nat}
    (h : fs.lookup k = some v) : k ∈ fs.map Prod.fst := by
  induction fs with
  | nil => simp [List.lookup] at h
  | cons p t ih =>
    obtain ⟨a, b⟩ := p
    rw [List.lookup_cons] at h
    by_cases hk : (k == a) = true
    · simp only [List.map_cons, List.mem_cons]
      exact Or.inl (beq_iff_eq.mp hk)
    · have hkf : (k == a) = false := by simpa using hk
      simp only [hkf] at h
      simp only [List.map_cons, List.mem_cons]
      exact Or.inr (ih h)

theorem vaultPath_injective (folder : List Nat) : Function.Injective (vaultPath folder) := by
  intro x y h
  have h2 := List.append_cancel_left h
  injection h2

theorem saveLoop_none (w : Bool) (fs : VaultFs) (folder data : List Nat) :
    ∀ (fuel : Nat) (name : List Nat),
      saveLoop w fs folder data fuel name = none →
      ∀ j < fuel,
        ∃ dj, fs.lookup (vaultPath folder (incIter name j)) = some dj ∧ dj ≠ data := by
  intro fuel
  induction fuel with
  | zero => intro name _ j hj; omega
  | succ fuel ih =>
    intro name h j hj
    simp only [saveLoop] at h
    cases hl : fs.lookup (vaultPath folder name) with
    | none =>
      simp only [hl] at h
      by_cases hw : w = true <;> simp [hw] at h
    | some d =>
      simp only [hl, hashFileData] at h
      by_cases hd : d = data
      · rw [if_pos hd] at h
        simp at h
      · rw [if_neg hd] at h
        match j with
        | 0 => exact ⟨d, by simpa [incIter] using hl, hd⟩
        | j + 1 =>
          have hres := ih (incrementFileName name) h j (by omega)
          rwa [incIter_shift] at hres

theorem saveLoop_path (w : Bool) (fs : VaultFs) (folder data : List Nat) :
    ∀ (fuel : Nat) (name : List Nat) (r : SaveResult),
      saveLoop w fs folder data fuel name = some r →
      r.path = [] ∨ ∃ k < fuel, r.path = vaultPath folder (incIter name k) := by
  intro fuel
  induction fuel with
  | zero => intro name r h; simp [saveLoop] at h
  | succ fuel ih =>
    intro name r h
    simp only [saveLoop] at h
    cases hl : fs.lookup (vaultPath folder name) with
    | none =>
      simp only [hl] at h
      by_cases hw : w = true
      · simp only [hw, if_true] at h
        obtain rfl := Option.some.inj h
        exact Or.inr ⟨0, by omega, rfl⟩
      · have hwf : w = false := by simpa using hw
        simp only [hwf, Bool.false_eq_true, if_false] at h
        obtain rfl := Option.some.inj h
        exact Or.inl rfl
    | some d =>
      simp only [hl, hashFileData] at h
      by_cases hd : d = data
      · rw [if_pos hd] at h
        obtain rfl := Option.some.inj h
        exact Or.inr ⟨0, by omega, rfl⟩
      · rw [if_neg hd] at h
        rcases ih (incrementFileName name) r h with hp | ⟨k, hk, hp⟩
        · exact Or.inl hp
        · rw [incIter_shift] at hp
          exact Or.inr ⟨k + 1, by omega, hp⟩

theorem saveLoop_spec (fs : VaultFs) (folder data : List Nat) :
    ∀ (fuel : Nat) (name : List Nat) (r : SaveResult),
      saveLoop true fs folder data fuel name = some r →
      (r.wrote = true ∧ r.fs = (r.path, data) :: fs ∧ fs.lookup r.path = none)
      ∨ (r.wrote = false ∧ r.fs = fs ∧ fs.lookup r.path = some data) := by
  intro fuel
  induction fuel with
  | zero => intro name r h; simp [saveLoop] at h
  | succ fuel ih =>
    intro name r h
    simp only [saveLoop] at h
    cases hl : fs.lookup (vaultPath folder name) with
    | none =>
      simp only [hl, if_true] at h
      obtain rfl := Option.some.inj h
      exact Or.inl ⟨rfl, rfl, hl⟩
    | some d =>
      simp only [hl, hashFileData] at h
      by_cases hd : d = data
      · rw [if_pos hd] at h
        obtain rfl := Option.some.inj h
        exact Or.inr ⟨rfl, rfl, by rw [hl, hd]⟩
      · rw [if_neg hd] at h
        exact ih (incrementFileName name) r h

theorem saveLoop_idempotent (fs : VaultFs) (folder data : List Nat) :
    ∀ (fuel : Nat) (name : List Nat) (r : SaveResult),
      saveLoop true fs folder data fuel name = some r →
      saveLoop true r.fs folder data fuel name = some ⟨r.path, r.fs, false⟩ := by
  intro fuel
  induction fuel with
  | zero => intro name r h; simp [saveLoop] at h
  | succ fuel ih =>
    intro name r h
    simp only [saveLoop] at h ⊢
    cases hl : fs.lookup (vaultPath folder name) with
    | none =>
      simp only [hl, if_true] at h
      obtain rfl := Option.some.inj h
      have hself : ((vaultPath folder name, data) :: fs).lookup (vaultPath folder name)
          = some data := by
        rw [List.lookup_cons]
        simp
      simp [hself, hashFileData]
    | some d =>
      simp only [hl, hashFileData] at h
      by_cases hd : d = data
      · rw [if_pos hd] at h
        obtain rfl := Option.some.inj h
        simp only [hl, hashFileData, if_pos hd]
      · rw [if_neg hd] at h
        have h2 := ih (incrementFileName name) r h
        rcases saveLoop_spec fs folder data fuel (incrementFileName name) r h with
          ⟨_, hfs, hnone⟩ | ⟨_, hfs, _⟩
        · have hne : (vaultPath folder name == r.path) = false := by
            apply beq_eq_false_iff_ne.mpr
            intro he
            rw [← he] at hnone
            rw [hnone] at hl
            exact Option.noConfusion hl
          have hlk : r.fs.lookup (vaultPath folder name) = some d := by
            rw [hfs, List.lookup_cons]
            simp only [hne]
            exact hl
          simp only [hlk, hashFileData, if_neg hd]
          exact h2
        · rw [hfs] at h2 ⊢
          simp only [hl, hashFileData, if_neg hd]
          exact h2

theorem saveFileToVault_total (w : Bool) (fs : VaultFs) (folder name data : List Nat)
    (hexact : incNum name + fs.length < twoPow53) :
    saveFileToVault w fs folder name data (fs.length + 1) ≠ none := by
  intro h
  have H := saveLoop_none w fs folder data (fs.length + 1) name h
  have hnodup : ((List.range (fs.length + 1)).map
      (fun j => vaultPath folder (incIter name j))).Nodup := by
    refine List.Nodup.map_on ?_ (List.nodup_range _)
    intro i hi j hj hij
    have hi2 := List.mem_range.mp hi
    have hj2 := List.mem_range.mp hj
    exact incIter_inj_on name fs.length hexact i (by omega) j (by omega)
      (vaultPath_injective folder hij)
  have hsub : ((List.range (fs.length + 1)).map
      (fun j => vaultPath folder (incIter name j))) ⊆ fs.map Prod.fst := by
    intro x hx
    obtain ⟨j, hj, rfl⟩ := List.mem_map.mp hx
    obtain ⟨dj, hdj, _⟩ := H j (List.mem_range.mp hj)
    exact lookup_some_mem_keys hdj
  have hle := (hnodup.subperm hsub).length_le
  simp only [List.length_map, List.length_range] at hle
  omega

/-- Specification of `saveFileToVault` when the underlying binary write
fails: the filesystem is untouched, nothing is written, and the returned
path is either the empty string or an existing content-identical entry. -/
theorem saveLoop_spec_false (fs : VaultFs) (folder data : List Nat) :
    ∀ (fuel : Nat) (name : List Nat) (r : SaveResult),
      saveLoop false fs folder data fuel name = some r →
      r.fs = fs ∧ r.wrote = false ∧ (r.path = [] ∨ fs.lookup r.path = some data) := by
  intro fuel
  induction fuel with
  | zero => intro name r h; simp [saveLoop] at h
  | succ fuel ih =>
    intro name r h
    simp only [saveLoop] at h
    cases hl : fs.lookup (vaultPath folder name) with
    | none =>
      simp only [hl, Bool.false_eq_true, if_false] at h
      obtain rfl := Option.some.inj h
      exact ⟨rfl, rfl, Or.inl rfl⟩
    | some d =>
      simp only [hl, hashFileData] at h
      by_cases hd : d = data
      · rw [if_pos hd] at h
        obtain rfl := Option.some.inj h
        exact ⟨rfl, rfl, Or.inr (by rw [hl, hd])⟩
      · rw [if_neg hd] at h
        exact ih (incrementFileName name) r h

/-! ## The claims -/

/-- C1 (counterexample): with S3 and the vault both enabled, an S3 upload
that throws makes `processFile` take its catch-all branch: the vault step
never runs (`vaultCalls = 0`), Eagle is never called, and the placeholder is
replaced by the error marker — refuting the spec's claim that an
object-store failure does not abort the pipeline. -/
theorem processFile_s3_failure_counterexample :
    processFile ⟨true, true, false, false, "", false, false⟩ false
        (Except.error "network error") "Attachments/x.png"
        (fun _ => Except.ok "eagle://item/1") "base" "image/png" "x.png"
        "before PLACE after" "PLACE"
      = ⟨"before ![Error uploading x.png] after", 0, none⟩
    ∧ (S3agleSettings.useVault ⟨true, true, false, false, "", false, false⟩ = true)
    ∧ ("before ![Error uploading x.png] after" ≠ "before PLACE after") := by
  refine ⟨by decide, rfl, by decide⟩

/-- C1 (amended): whenever the object-store backend is enabled and its
upload throws, `processFile` aborts the whole per-attachment operation: the
local-tree and asset-manager steps are skipped and the placeholder is
replaced with the `![Error uploading …]` marker, regardless of whether the
other enabled backends would have succeeded. -/
theorem processFile_s3_failure_aborts (settings : S3agleSettings)
    (vaultSave : String) (eagleUpload : String → Except String String)
    (baseVaultPath fileType fileName doc placeholder e : String)
    (hs3 : settings.useS3 = true) :
    processFile settings false (Except.error e) vaultSave eagleUpload
        baseVaultPath fileType fileName doc placeholder
      = ⟨replacePlaceholder doc placeholder ("![Error uploading " ++ fileName ++ "]"),
         0, none⟩ := by
  simp [processFile, hs3]

/-- C1 (witness): the amended theorem applied at a concrete input. -/
theorem processFile_s3_failure_aborts_witness :
    processFile ⟨true, true, true, false, "", false, false⟩ false
        (Except.error "boom") "v" (fun _ => Except.ok "e") "b" "image/png" "x.png"
        "d PLACE" "PLACE"
      = ⟨replacePlaceholder "d PLACE" "PLACE" ("![Error uploading " ++ "x.png" ++ "]"),
         0, none⟩ :=
  processFile_s3_failure_aborts ⟨true, true, true, false, "", false, false⟩
    "v" (fun _ => Except.ok "e") "b" "image/png" "x.png" "d PLACE" "PLACE" "boom" rfl

/-- C2 (counterexample): in hash mode the candidate name for `"a.png"` with
seed 1 is the bare decimal string `"77606935"`; the original extension
`.png` is not preserved, refuting that part of the claim (and the digest is
computed from the name string — the naming function receives no payload
bytes at all). -/
theorem hashName_extension_counterexample :
    hashNameIfNeeded "a.png" true 1 = "77606935"
    ∧ (".png".data.isSuffixOf (hashNameIfNeeded "a.png" true 1).data) = false := by
  refine ⟨by decide, by decide⟩

/-- C2 (amended): naming in hash mode is a deterministic digest of the
attachment's original name string (not its payload bytes) combined with the
seed, rendered as the decimal string of an unsigned 32-bit value; the
extension of the original name is hashed along with the rest and is not
preserved. -/
theorem hashName_hash_mode (name : String) (seed : Nat) :
    hashNameIfNeeded name true seed = hashString name seed
    ∧ ∃ n : Nat, n < 4294967296 ∧ hashString name seed = toString n :=
  ⟨rfl, hashVal name seed % 4294967296, Nat.mod_lt _ (by omega), rfl⟩

/-- C3 (counterexample): resolving `["B", "C"]` with `createIfMissing` in a
sibling list that already contains a node named `"C"`: after creating `"B"`
the resolver searches the remaining segment in the SAME sibling list, finds
the pre-existing `"C"` (parent `"idA"`, not the synthesized id `"new_B"`)
and issues only one creation call — refuting the claim that remaining
segments are looked up under the newly created node. -/
theorem findFolderInTree_sibling_counterexample :
    findFolderInTree (fun n _ => some ("new_" ++ n)) true
        [Folder.mk "idC0" "C" "idA" []] ["B", "C"] "idA"
      = (some (Folder.mk "idC0" "C" "idA" []), [("B", "idA")])
    ∧ ("idA" : String) ≠ "new_B" :=
  ⟨rfl, by decide⟩

/-- C3 (amended): at a segment with no name match and `createIfMissing`
true, the resolver invokes the creation primitive with `(name, parent-id)`;
on failure it returns not-found without attempting the remainder; on
success, if this was the last segment it synthesizes a `Folder` with empty
children, and otherwise it resolves the remaining segments using the
synthesized id as parent but searching the SAME sibling list in which the
miss occurred (not the new node's empty children), so a remaining segment
can match a pre-existing sibling. -/
theorem findFolderInTree_create_missing (create : String → String → Option String)
    (folders : List Folder) (name : String) (rest : List String) (parentId : String)
    (hmiss : folders.find? (fun f => f.name == name) = none) :
    (create name parentId = none →
      findFolderInTree create true folders (name :: rest) parentId
        = (none, [(name, parentId)]))
    ∧ (∀ newId, create name parentId = some newId →
        (rest = [] →
          findFolderInTree create true folders (name :: rest) parentId
            = (some (Folder.mk newId name parentId []), [(name, parentId)]))
        ∧ (rest ≠ [] →
          findFolderInTree create true folders (name :: rest) parentId
            = ((findFolderInTree create true folders rest newId).1,
               (name, parentId) :: (findFolderInTree create true folders rest newId).2))) := by
  refine ⟨?_, ?_⟩
  · intro hc
    simp [findFolderInTree, hmiss, hc]
  · intro newId hc
    refine ⟨?_, ?_⟩
    · rintro rfl
      simp [findFolderInTree, hmiss, hc]
    · intro hne
      have hempty : rest.isEmpty = false := List.isEmpty_eq_false.mpr hne
      simp [findFolderInTree, hmiss, hc, hempty]

/-- C3 (witness): the amended theorem applied at a concrete input, failure
branch: one creation call, not-found, remainder not attempted. -/
theorem findFolderInTree_create_missing_witness :
    findFolderInTree (fun _ _ => none) true [] ["A", "B"] ""
      = (none, [("A", "")]) :=
  (findFolderInTree_create_missing (fun _ _ => none) [] "A" ["B"] "" rfl).1 rfl

/-- C4: resolving a 3-segment path whose first segment matches a node `A`
while the second and third segments match nothing among `A`'s children
issues exactly two creation calls — `(s2, A.id)` and then `(s3, idb)` with
`idb` the id created for `s2` — and returns a synthesized node whose id is
the second created id and whose parent id is `idb`, chaining back through
the first created folder to the pre-existing `A.id`. -/
theorem findFolderInTree_two_creations (create : String → String → Option String)
    (folders : List Folder) (s1 s2 s3 : String) (A : Folder) (idb idc : String)
    (h1 : folders.find? (fun f => f.name == s1) = some A)
    (h2 : A.children.find? (fun f => f.name == s2) = none)
    (h3 : A.children.find? (fun f => f.name == s3) = none)
    (hc1 : create s2 A.id = some idb)
    (hc2 : create s3 idb = some idc) :
    findFolderInTree create true folders [s1, s2, s3] ""
      = (some (Folder.mk idc s3 idb []), [(s2, A.id), (s3, idb)]) := by
  simp [findFolderInTree, h1, h2, h3, hc1, hc2]

/-- C4 (witness): the theorem applied at a concrete snapshot with only the
first segment present. -/
theorem findFolderInTree_two_creations_witness :
    findFolderInTree (fun n p => some ("c_" ++ n ++ "_" ++ p)) true
        [Folder.mk "idA" "A" "" []] ["A", "B", "C"] ""
      = (some (Folder.mk "c_C_c_B_idA" "C" "c_B_idA" []),
         [("B", "idA"), ("C", "c_B_idA")]) :=
  findFolderInTree_two_creations (fun n p => some ("c_" ++ n ++ "_" ++ p))
    [Folder.mk "idA" "A" "" []] "A" "B" "C" (Folder.mk "idA" "A" "" [])
    "c_B_idA" "c_C_c_B_idA" rfl rfl rfl rfl rfl

/-- C5: the local store is idempotent — if a call returned path `r.path`
leaving filesystem `r.fs`, running the same store again (same folder, name
and bytes) returns the same path, leaves the filesystem unchanged, and
performs no physical write. -/
theorem saveFileToVault_idempotent (fs : VaultFs) (folder name data : List Nat)
    (fuel : Nat) (r : SaveResult)
    (h : saveFileToVault true fs folder name data fuel = some r) :
    saveFileToVault true r.fs folder name data fuel = some ⟨r.path, r.fs, false⟩ :=
  saveLoop_idempotent fs folder data fuel name r h

/-- C5 (witness): storing `[1]` as `a` under `d` in an empty vault writes
`d/a`; storing it again returns `d/a` without writing. -/
theorem saveFileToVault_idempotent_witness :
    saveFileToVault true [([100, 47, 97], [1])] [100] [97] [1] 1
      = some ⟨[100, 47, 97], [([100, 47, 97], [1])], false⟩ :=
  saveFileToVault_idempotent [] [100] [97] [1] 1
    ⟨[100, 47, 97], [([100, 47, 97], [1])], true⟩ rfl

/-- The name `a10000000000000000.png` as code units.  Its 17-digit run has
value `10^16 > 2^53`; `parseInt` yields `1e16` exactly, but the `+ 1` is
absorbed by double rounding (`1e16 + 1 === 1e16` in JavaScript, a tie
rounded to the even mantissa `5e15`) and the rendering of `1e16` is the
same 17 digits, so `incrementFileName` maps this name to itself. -/
def floatFixedName : List Nat :=
  [97, 49, 48, 48, 48, 48, 48, 48, 48, 48, 48, 48, 48, 48, 48, 48, 48, 48, 46, 112, 110, 103]

/-- A name that `incrementFileName` maps to itself spins the collision loop
forever on an entry with different bytes: no amount of fuel makes the loop
return. -/
theorem saveLoop_fixedpoint_spins (w : Bool) (fs : VaultFs)
    (folder data name : List Nat) (hfix : incrementFileName name = name)
    (d : List Nat) (hl : fs.lookup (vaultPath folder name) = some d)
    (hd : d ≠ data) :
    ∀ fuel, saveLoop w fs folder data fuel name = none := by
  intro fuel
  induction fuel with
  | zero => rfl
  | succ fuel ih =>
    simp only [saveLoop, hl, hashFileData]
    rw [if_neg hd, hfix]
    exact ih

/-- C6 (counterexample): for the name `a10000000000000000.png` the
increment of the suffix loop is a fixed point of `incrementFileName` —
double rounding absorbs the `+ 1` — so the tried names are not pairwise
distinct, the numeric suffixes do not increase, and on a filesystem whose
single entry holds that path with different bytes the loop does not
terminate within `fs.length + 1` iterations (nor, by
`saveLoop_fixedpoint_spins`, within any number of iterations), refuting
the claim as stated. -/
theorem saveFileToVault_float_counterexample :
    incrementFileName floatFixedName = floatFixedName
    ∧ incIter floatFixedName 1 = incIter floatFixedName 0
    ∧ saveFileToVault true [(vaultPath [100] floatFixedName, [9])] [100]
        floatFixedName [1] ([(vaultPath [100] floatFixedName, [9])].length + 1)
      = none := by
  refine ⟨by decide, by decide, ?_⟩
  exact saveLoop_fixedpoint_spins true [(vaultPath [100] floatFixedName, [9])]
    [100] [1] floatFixedName (by decide) [9] (by decide) (by decide) _

/-- C6 (amended): as long as the numeric suffix values in play stay inside
the exactly-representable double range — `incNum name + fs.length < 2^53`,
which holds for every realistic file name — the collision loop terminates
within `fs.length + 1` iterations, returning either the empty path (write
failure) or one of the tried paths; the tried paths are pairwise distinct
(so a collision resolves to a path different from the original name's path
and from every earlier colliding path); and the numeric suffixes of the
successively tried names increase by exactly one.  Outside that range
double rounding can make the increment a fixed point and the loop need not
terminate. -/
theorem saveFileToVault_terminates_distinct (writeOk : Bool) (fs : VaultFs)
    (folder name data : List Nat)
    (hexact : incNum name + fs.length < twoPow53) :
    (∃ r, saveFileToVault writeOk fs folder name data (fs.length + 1) = some r
        ∧ (r.path = [] ∨ ∃ k, k ≤ fs.length ∧ r.path = vaultPath folder (incIter name k)))
    ∧ (∀ i j : Nat, i ≤ fs.length → j ≤ fs.length → i ≠ j →
        vaultPath folder (incIter name i) ≠ vaultPath folder (incIter name j))
    ∧ (∀ j : Nat, incNum name + j + 1 < twoPow53 →
        parseDigits (incDigits (incIter name (j + 2)))
          = parseDigits (incDigits (incIter name (j + 1))) + 1) := by
  refine ⟨?_, ?_, ?_⟩
  · cases h : saveFileToVault writeOk fs folder name data (fs.length + 1) with
    | none => exact absurd h (saveFileToVault_total writeOk fs folder name data hexact)
    | some r =>
      refine ⟨r, rfl, ?_⟩
      rcases saveLoop_path writeOk fs folder data (fs.length + 1) name r h with hp | ⟨k, hk, hp⟩
      · exact Or.inl hp
      · exact Or.inr ⟨k, by omega, hp⟩
  · intro i j hi hj hne heq
    exact hne (incIter_inj_on name fs.length hexact i hi j hj
      (vaultPath_injective folder heq))
  · intro j hj
    have e1 := incDigits_incIter name (j + 1) (by omega)
    have e2 := incDigits_incIter name j (by omega)
    rw [show j + 2 = (j + 1) + 1 from rfl, e1, e2,
      parseDigits_natDigits, parseDigits_natDigits]
    omega

/-- C6 (witness): the amended theorem applied at a concrete input — a
one-entry filesystem and the name `a`, whose suffix values are tiny — giving
the distinctness of the first two tried paths. -/
theorem saveFileToVault_terminates_distinct_witness :
    vaultPath [100] (incIter [97] 0) ≠ vaultPath [100] (incIter [97] 1) :=
  (saveFileToVault_terminates_distinct true [([49], [9])] [100] [97] [1]
      (by decide)).2.1 0 1 (by decide) (by decide) (by decide)

/-- C7: for an image-category attachment the embed renderer emits a
link-style reference exactly when the location starts with `eagle://`, and
an inline `![name](location)` image reference otherwise, independently of
the other settings and of which backend produced the location. -/
theorem wrapFile_image_eagle_link (location localBase : String)
    (settings : S3agleSettings) (fileName : String) :
    wrapFileDependingOnType location "image" localBase settings fileName
      = if startsWithStr location "eagle://"
          then "[" ++ fileName ++ "](" ++ location ++ ")"
          else "![" ++ fileName ++ "](" ++ location ++ ")" := by
  simp [wrapFileDependingOnType]

/-- C8 (counterexample): with all three backends disabled, `processFile`
replaces the placeholder with the literal text
`ERROR WRAPPING FILE FOR FILE PREVIEW`; the document is changed, refuting
the claimed no-op. -/
theorem processFile_all_disabled_counterexample :
    (processFile ⟨false, false, false, false, "", false, false⟩ false
        (Except.ok "") "" (fun _ => Except.ok "") "base" "image/png" "x.png"
        "a PLACE b" "PLACE").doc
      = "a ERROR WRAPPING FILE FOR FILE PREVIEW b"
    ∧ ("a ERROR WRAPPING FILE FOR FILE PREVIEW b" ≠ "a PLACE b") := by
  refine ⟨by decide, by decide⟩

/-- C8 (amended): with all three backends disabled and no local-only
override, `processFile` performs no backend call, but it is not a no-op on
the document: it replaces the placeholder with the literal error text
`ERROR WRAPPING FILE FOR FILE PREVIEW` (the document stays unchanged only
when the placeholder does not occur in it). -/
theorem processFile_all_disabled (settings : S3agleSettings)
    (s3Upload : Except String String) (vaultSave : String)
    (eagleUpload : String → Except String String)
    (baseVaultPath fileType fileName doc placeholder : String)
    (hs3 : settings.useS3 = false) (hv : settings.useVault = false)
    (he : settings.useEagle = false) :
    processFile settings false s3Upload vaultSave eagleUpload baseVaultPath
        fileType fileName doc placeholder
      = ⟨replacePlaceholder doc placeholder "ERROR WRAPPING FILE FOR FILE PREVIEW",
         0, none⟩ := by
  simp [processFile, generateFilePreview, hs3, hv, he]

/-- C8 (witness): the amended theorem applied at a concrete input. -/
theorem processFile_all_disabled_witness :
    processFile ⟨false, false, false, false, "", false, false⟩ false
        (Except.ok "") "" (fun _ => Except.ok "") "b" "image/png" "x.png"
        "a PLACE b" "PLACE"
      = ⟨replacePlaceholder "a PLACE b" "PLACE" "ERROR WRAPPING FILE FOR FILE PREVIEW",
         0, none⟩ :=
  processFile_all_disabled ⟨false, false, false, false, "", false, false⟩
    (Except.ok "") "" (fun _ => Except.ok "") "b" "image/png" "x.png"
    "a PLACE b" "PLACE" rfl rfl rfl

/-- C9: when S3 is enabled and its upload succeeded with a non-empty URL
and Eagle is enabled, `uploadToEagle` receives the S3 URL — not the vault
path — even when the vault is also enabled and produced a path. -/
theorem processFile_eagle_gets_s3_url (settings : S3agleSettings) (s3Url : String)
    (vaultSave : String) (eagleUpload : String → Except String String)
    (baseVaultPath fileType fileName doc placeholder : String)
    (hs3 : settings.useS3 = true) (he : settings.useEagle = true)
    (hurl : s3Url ≠ "") :
    (processFile settings false (Except.ok s3Url) vaultSave eagleUpload
        baseVaultPath fileType fileName doc placeholder).eagleArg = some s3Url := by
  cases hout : eagleUpload s3Url with
  | error err => simp [processFile, hs3, he, hurl, hout]
  | ok u => simp [processFile, hs3, he, hurl, hout]

/-- C9 (witness): the theorem applied at a concrete input with both S3 and
the vault enabled and succeeding. -/
theorem processFile_eagle_gets_s3_url_witness :
    (processFile ⟨true, true, true, false, "", false, false⟩ false
        (Except.ok "https://cdn.example/x.png") "Attachments/x.png"
        (fun _ => Except.ok "eagle://item/9") "b" "image/png" "x.png"
        "d PLACE" "PLACE").eagleArg = some "https://cdn.example/x.png" :=
  processFile_eagle_gets_s3_url ⟨true, true, true, false, "", false, false⟩
    "https://cdn.example/x.png" "Attachments/x.png"
    (fun _ => Except.ok "eagle://item/9") "b" "image/png" "x.png" "d PLACE" "PLACE"
    rfl rfl (by decide)

/-- C10: `saveFileToVault` never surfaces an error: when the underlying
binary write fails the call still returns — with the empty string as path,
the filesystem untouched and nothing written — and any non-empty returned
path is an existing content-identical entry. -/
theorem saveFileToVault_write_failure (fs : VaultFs) (folder name data : List Nat)
    (fuel : Nat) (r : SaveResult)
    (h : saveFileToVault false fs folder name data fuel = some r) :
    r.fs = fs ∧ r.wrote = false ∧ (r.path = [] ∨ fs.lookup r.path = some data) :=
  saveLoop_spec_false fs folder data fuel name r h

/-- C10 (witness): the theorem applied at a concrete input where the write
fails on first use. -/
theorem saveFileToVault_write_failure_witness :
    (⟨[], [], false⟩ : SaveResult).fs = ([] : VaultFs)
    ∧ (⟨[], [], false⟩ : SaveResult).wrote = false
    ∧ ((⟨[], [], false⟩ : SaveResult).path = []
        ∨ ([] : VaultFs).lookup (⟨[], [], false⟩ : SaveResult).path = some [1]) :=
  saveFileToVault_write_failure [] [100] [97] [1] 1 ⟨[], [], false⟩ rfl

end S3agle
